import Mathlib

/-!
Verification of the interval-indexing and transcript-matching core of the
MatchAnnot repository (src/matchannot).  Python functions are shallowly
embedded as Lean functions over lists; genomic coordinates are `Int`,
list indices are `Nat`.  The Python attribute `end` is rendered as `stop`
(`end` is a Lean keyword); everything else keeps the source's names.
-/

namespace MatchAnnot

/-- An interval as used by `matchAnnot.findOverlaps`: any object with
`start` and `end` attributes (exons of a read or of a transcript).
`stop` embeds the Python attribute `end`. -/
structure Interval where
  start : Int
  stop : Int
deriving DecidableEq

instance : Inhabited Interval := ⟨⟨0, 0⟩⟩

/-- Default interval used for out-of-range `getD` reads. -/
def dI : Interval := ⟨0, 0⟩

/-- Embeds the first inner loop of `findOverlaps` (matchAnnot.py:359-360):
`while pos2 < len(list2) and list2[pos2].end < list1[pos1].start: pos2 += 1`.
The list argument is the suffix `list2.drop pos2`; the `Nat` argument is the
running absolute index `pos2`, which is returned once the loop stops. -/
def skipPast (s1 : Int) : List Interval → Nat → Nat
  | [], pos2 => pos2
  | iv :: rest, pos2 => if iv.stop < s1 then skipPast s1 rest (pos2 + 1) else pos2

/-- Embeds the second inner loop of `findOverlaps` (matchAnnot.py:362-366):
`ix = pos2; while ix < len(list2) and list2[ix].start < list1[pos1].end:
over1[pos1].append(ix); ix += 1`.  The list argument is `list2.drop ix`;
the `Nat` argument is the absolute index `ix`; the collected indices are
exactly the entries appended to `over1[pos1]`. -/
def collectOver (e1 : Int) : List Interval → Nat → List Nat
  | [], _ => []
  | iv :: rest, ix => if iv.start < e1 then ix :: collectOver e1 rest (ix + 1) else []

/-- Embeds the outer loop of `findOverlaps` (matchAnnot.py:355-368): one
row of `over1` per `list1` entry, threading the persistent `pos2` cursor. -/
def findOverlapsGo (list2 : List Interval) : List Interval → Nat → List (List Nat)
  | [], _ => []
  | iv1 :: rest1, pos2 =>
    let pos2' := skipPast iv1.start (list2.drop pos2) pos2
    collectOver iv1.stop (list2.drop pos2') pos2' :: findOverlapsGo list2 rest1 pos2'

/-- Embeds `matchAnnot.findOverlaps`.  `over1` is produced by the loop
above.  In the source, `over2[ix]` receives `pos1` appended at the same
moment `ix` is appended to `over1[pos1]`; since `pos1` ascends through the
outer loop and each `ix` is appended at most once per `pos1`, `over2[j]`
is exactly the ascending list of the `i` with `j ∈ over1[i]` (the source's
own docstring notes that either array determines the other by this
inversion). -/
def findOverlaps (list1 list2 : List Interval) : List (List Nat) × List (List Nat) :=
  let over1 := findOverlapsGo list2 list1 0
  let over2 := (List.range list2.length).map
    (fun j => (List.range list1.length).filter (fun i => (over1.getD i []).contains j))
  (over1, over2)

/-- The overlap test asserted by the spec for `findOverlaps`:
`[s1,e1]` and `[s2,e2]` overlap iff `s1 < e2 and s2 < e1`. -/
def specOverlap (a b : Interval) : Prop := a.start < b.stop ∧ b.start < a.stop

instance (a b : Interval) : Decidable (specOverlap a b) := by
  unfold specOverlap; infer_instance

/-- The test `findOverlaps` actually implements on sorted disorder-free
input (non-strict on the low side): `s1 ≤ e2 and s2 < e1`. -/
def codeOverlap (a b : Interval) : Prop := a.start ≤ b.stop ∧ b.start < a.stop

instance (a b : Interval) : Decidable (codeOverlap a b) := by
  unfold codeOverlap; infer_instance

/-- Sortedness of an interval list by a projection (ascending). -/
def sortedBy (f : Interval → Int) (l : List Interval) : Prop :=
  l.Pairwise (fun a b => f a ≤ f b)

instance (f : Interval → Int) (l : List Interval) : Decidable (sortedBy f l) := by
  unfold sortedBy; infer_instance

/-- Modelled from the spec: the running-extremum tracker of `Best.py`, which
is imported by matchAnnot.py (`from . import Best as best`) but whose source
file is not in the repository snapshot.  Spec 4.5: `update(value, payload)`
replaces the held extremum iff the new value is strictly better under the
configured direction (maximize by default, minimize when `reverse` is set);
an uninitialized tracker holds no value.  `value`/`which` project the held
(value, payload) pair, both `none` when nothing is held, as in the source
where both attributes start as Python `None`. -/

structure Best (β α : Type) where
  reverse : Bool
  held : Option (β × α)

/-- Modelled from the spec: a fresh tracker (`Best(reverse=...)`) holding
no value. -/
def Best.start {β α : Type} (rev : Bool) : Best β α := ⟨rev, none⟩

/-- Modelled from the spec: the tracker's current extreme value. -/
def Best.value {β α : Type} (b : Best β α) : Option β := b.held.map Prod.fst

/-- Modelled from the spec: the payload of the current extremum. -/
def Best.which {β α : Type} (b : Best β α) : Option α := b.held.map Prod.snd

/-- Modelled from the spec: `update(value, payload)` — replace iff strictly
better (new < held when minimizing, held < new when maximizing). -/
def Best.update {β α : Type} [LinearOrder β] (b : Best β α) (v : β) (w : α) : Best β α :=
  match b.held with
  | none => ⟨b.reverse, some (v, w)⟩
  | some (cv, cw) =>
    if (if b.reverse then v < cv else cv < v) then ⟨b.reverse, some (v, w)⟩
    else ⟨b.reverse, some (cv, cw)⟩

/-- Folding `update` over a stream of (value, payload) pairs. -/
def Best.updates {β α : Type} [LinearOrder β] (b : Best β α) : List (β × α) → Best β α
  | [] => b
  | (v, w) :: rest => (b.update v w).updates rest

/-- Embeds `matchAnnot.canMatch` (matchAnnot.py:388-404): the running
`last` (starts at -1) and `hit` flags threaded through the loop. -/
def canMatchGo : List (List Nat) → Int → Bool → Bool
  | [], _, hit => hit
  | g :: rest, last, hit =>
    match g with
    | [] => canMatchGo rest last hit
    | [x] => if (x : Int) ≤ last then false else canMatchGo rest (x : Int) true
    | _ :: _ :: _ => false

/-- Embeds `matchAnnot.canMatch`: a set of overlaps is matchable iff no
read exon hits more than one transcript exon, hit indices strictly
increase, and there is at least one hit. -/
def canMatch (over : List (List Nat)) : Bool := canMatchGo over (-1) false

/-- Embeds the loop of `matchAnnot.isMatch` (matchAnnot.py:413-415):
`over1[ix]` must equal `[ix]` for every ix. -/
def isMatchGo : List (List Nat) → Nat → Bool
  | [], _ => true
  | g :: rest, ix => if g = [ix] then isMatchGo rest (ix + 1) else false

/-- Embeds `matchAnnot.isMatch` (matchAnnot.py:407-417). -/
def isMatch (over1 over2 : List (List Nat)) : Bool :=
  over1.length == over2.length && isMatchGo over1 0

/-- Embeds `matchAnnot.internalMatch` (matchAnnot.py:420-438): all exon
boundaries coincide except the first exon's start and the last exon's end.
(The source indexes `list2` with `list1`'s ranges; it is only called when
`isMatch` holds, so the lists have equal length and `getD` never hits its
default.) -/
def internalMatch (list1 list2 : List Interval) : Bool :=
  (List.range' 1 (list1.length - 1)).all
    (fun ix => (list1.getD ix dI).start == (list2.getD ix dI).start) &&
  (List.range (list1.length - 1)).all
    (fun ix => (list1.getD ix dI).stop == (list2.getD ix dI).stop)

/-- The count of matching exons in `matchTranscripts`
(`sum([len(x) == 1 for x in overR])`, matchAnnot.py:281). -/
def numHitsOf (overR : List (List Nat)) : Nat := overR.countP (fun x => x.length == 1)

/-- The truncation amount for a score-4 transcript (matchAnnot.py:289-291):
`abs(readExons[0].start - tranExons[0].start) +
 abs(readExons[-1].end - tranExons[-1].end)`. -/
def truncAmt (readExons tranExons : List Interval) : Nat :=
  ((readExons.headD dI).start - (tranExons.headD dI).start).natAbs +
  ((readExons.getLastD dI).stop - (tranExons.getLastD dI).stop).natAbs

/-- The pass-1 score of one transcript in `matchTranscripts`
(matchAnnot.py:278-295): 0 if not matchable, else 1, promoted to 3 by a
full one-for-one match, promoted to 4 by an internal-coordinate match. -/
def tranScore (readExons tranExons : List Interval) : Nat :=
  let o := findOverlaps readExons tranExons
  if canMatch o.1 then
    if isMatch o.1 o.2 then
      if internalMatch readExons tranExons then 4 else 3
    else 1
  else 0

/-- The mutable state of the first loop of `matchTranscripts`: the `scores`
list built by `scores.append(score)` and the three trackers. -/
structure MTState where
  scores : List Nat
  bestScore : Best Nat Nat
  bestTrunc : Best Nat Nat
  bestHits : Best Nat Nat

/-- One iteration of the first loop of `matchTranscripts`
(matchAnnot.py:271-297) at transcript index `ix`, mirroring the source's
nested cascade: `bestHits` is updated whenever `canMatch` holds, `bestTrunc`
whenever score 4 is reached, `bestScore` and `scores` always. -/
def pass1Step (readExons : List Interval) (ix : Nat) (tranExons : List Interval)
    (st : MTState) : MTState :=
  match st with
  | ⟨scores, bestScore, bestTrunc, bestHits⟩ =>
    let o := findOverlaps readExons tranExons
    if canMatch o.1 then
      let bestHits' := bestHits.update (numHitsOf o.1) ix
      if isMatch o.1 o.2 then
        if internalMatch readExons tranExons then
          ⟨scores ++ [4], bestScore.update 4 ix,
            bestTrunc.update (truncAmt readExons tranExons) ix, bestHits'⟩
        else ⟨scores ++ [3], bestScore.update 3 ix, bestTrunc, bestHits'⟩
      else ⟨scores ++ [1], bestScore.update 1 ix, bestTrunc, bestHits'⟩
    else ⟨scores ++ [0], bestScore.update 0 ix, bestTrunc, bestHits⟩

/-- The first loop of `matchTranscripts` over the gene's transcripts (each
given by its exon list), threading the index `ix` of `enumerate(gene)`. -/
def pass1 (readExons : List Interval) : List (List Interval) → Nat → MTState → MTState
  | [], _, st => st
  | t :: rest, ix, st => pass1 readExons rest (ix + 1) (pass1Step readExons ix t st)

/-- Embeds the scoring part of `matchAnnot.matchTranscripts`
(matchAnnot.py:251-304): run the first loop from empty state
(`bestScore = Best(); bestTrunc = Best(reverse=True); bestHits = Best()`),
then apply the promotion step: if the best score is 4, the score-4
transcript with the smallest truncation is promoted to 5; else if the best
score is 1, the matchable transcript with the most exon hits is promoted
to 2.  Returns the per-transcript scores after promotion (the printing and
best-transcript selection are omitted; the `none` fallbacks are unreachable
because a best value forces the corresponding tracker to hold a payload). -/
def matchTranscriptsScores (readExons : List Interval)
    (gene : List (List Interval)) : List Nat :=
  let st := pass1 readExons gene 0 ⟨[], Best.start false, Best.start true, Best.start false⟩
  if st.bestScore.value = some 4 then
    match st.bestTrunc.which with
    | some w => st.scores.set w 5
    | none => st.scores
  else if st.bestScore.value = some 1 then
    match st.bestHits.which with
    | some w => st.scores.set w 2
    | none => st.scores
  else st.scores

/-- Left-biased combination of an optional held extremum with another:
the second replaces the first iff strictly better. -/
def combineBest {α : Type} (rev : Bool) :
    Option (Nat × α) → Option (Nat × α) → Option (Nat × α)
  | none, c => c
  | some p, none => some p
  | some p, some q => if (if rev then q.1 < p.1 else p.1 < q.1) then some q else some p

/-- The extremum (first-wins) of a pair stream, head-recursively. -/
def runBest {α : Type} (rev : Bool) : List (Nat × α) → Option (Nat × α)
  | [] => none
  | p :: rest => combineBest rev (some p) (runBest rev rest)

/-- The (value, payload) stream fed to `bestScore` by the first loop of
`matchTranscripts`: one pair per transcript, value its pass-1 score,
payload its index. -/
def scorePairs (readExons : List Interval) : Nat → List (List Interval) → List (Nat × Nat)
  | _, [] => []
  | ix, t :: rest => (tranScore readExons t, ix) :: scorePairs readExons (ix + 1) rest

/-- The stream fed to `bestTrunc`: one pair per score-4 transcript. -/
def truncPairs (readExons : List Interval) : Nat → List (List Interval) → List (Nat × Nat)
  | _, [] => []
  | ix, t :: rest =>
    (if tranScore readExons t = 4 then [(truncAmt readExons t, ix)] else []) ++
      truncPairs readExons (ix + 1) rest

/-- The stream fed to `bestHits`: one pair per matchable transcript. -/
def hitPairs (readExons : List Interval) : Nat → List (List Interval) → List (Nat × Nat)
  | _, [] => []
  | ix, t :: rest =>
    (if canMatch (findOverlaps readExons t).1 then
      [(numHitsOf (findOverlaps readExons t).1, ix)] else []) ++
      hitPairs readExons (ix + 1) rest

/-- Concrete read-exon list used by witnesses: two exons. -/
def reW : List Interval := [⟨100,200⟩,⟨300,400⟩]

/-- Concrete gene used by the C5 witness: two transcripts with identical
exons, so both reach score 4 with truncation distance 0 (a tie). -/
def geneW : List (List Interval) := [[⟨100,200⟩,⟨300,400⟩],[⟨100,200⟩,⟨300,400⟩]]

/-- Embeds `Annotations.Annot`: a gene, transcript, or exon node.
`children` is `none` until the first `addChild` (Python initializes it to
`None`); `stop` embeds the attribute `end`.  The transcript-only dynamic
attributes (ID, length, codons) play no role in the claims. -/

inductive Annot : Type where
  | node (start stop : Int) (strand name : String)
      (children : Option (List Annot)) : Annot

def Annot.start : Annot → Int
  | .node s _ _ _ _ => s

def Annot.stop : Annot → Int
  | .node _ e _ _ _ => e

def Annot.strand : Annot → String
  | .node _ _ st _ _ => st

def Annot.name : Annot → String
  | .node _ _ _ n _ => n

def Annot.children : Annot → Option (List Annot)
  | .node _ _ _ _ c => c

instance : Inhabited Annot := ⟨.node 0 0 "+" "" none⟩

/-- Default annotation used for out-of-range `getD` reads. -/
def dA : Annot := .node 0 0 "+" "" none

/-- The child list of a node, empty when `children is None`; matches how
`numChildren` (0 for `None`) and iteration treat the `None` case. -/
def Annot.childList (a : Annot) : List Annot :=
  (a.children).getD []

/-- Embeds `Annot.numChildren`. -/
def Annot.numChildren (a : Annot) : Nat := a.childList.length

/-- Embeds `Annot.addChild` (Annotations.py:45-73): fast-path append
when the child starts at or after the last child, fast-path prepend when
it starts at or before the first, otherwise append and re-sort by start
(Python's stable `list.sort`). -/
def Annot.addChild (a child : Annot) : Annot :=
  match a with
  | .node s e st n none => .node s e st n (some [child])
  | .node s e st n (some cs) =>
    match cs with
    | [] => .node s e st n (some [child])
    | c0 :: rest =>
      if ((c0 :: rest).getLast (by simp)).start ≤ child.start then
        .node s e st n (some (cs ++ [child]))
      else if child.start ≤ c0.start then
        .node s e st n (some (child :: cs))
      else
        .node s e st n
          (some ((cs ++ [child]).mergeSort (fun x y => decide (x.start ≤ y.start))))

/-- Embeds `AnnotationList`: the mapping chromosome name → top-level
Annot node (dict insertion order as an association list). -/
structure AnnotationList where
  annot : List (String × Annot)

/-- Embeds `AnnotationList.geneList` (Annotations.py:415-420): raises
`RuntimeError` (modelled as `Except.error`) when the chromosome is not in
the index. -/
def AnnotationList.geneList (al : AnnotationList) (chr : String) :
    Except String Annot :=
  match al.annot.lookup chr with
  | none => .error ("chromosome " ++ chr ++ " not in annotation")
  | some top => .ok top

/-- All genes of the index in `getGeneDict` traversal order (chromosomes
in sorted order, genes in child order). -/
def AnnotationList.allGenes (al : AnnotationList) : List Annot :=
  (((al.annot.map Prod.fst).mergeSort (fun x y => decide (x ≤ y))).map
    (fun chr => match al.annot.lookup chr with
      | some top => top.childList
      | none => [])).flatten

/-- Embeds `AnnotationList.getGene` (Annotations.py:437-443) composed with
`getGeneDict`: the genes named `geneName`, or `None` when the name is
absent from the lookup table (a name is a key of `geneDict` iff some gene
bears it). -/
def AnnotationList.getGene (al : AnnotationList) (geneName : String) :
    Option (List Annot) :=
  let hits := al.allGenes.filter (fun g => g.name == geneName)
  if hits.isEmpty then none else some hits

/-- Embeds `AnnotationCursor` (Annotations.py:502-523): the per-chromosome
position dict, total over names (every chromosome of the index maps to 0
initially, as in `__init__`). -/
structure AnnotationCursor where
  annotList : AnnotationList
  posit : String → Nat

/-- Embeds the `while` loop of `AnnotationCursor.advance`
(Annotations.py:521-522) on the suffix `geneList.drop cur`, returning the
new index: skip genes whose `end < start`. -/
def advanceGo (startq : Int) : List Annot → Nat → Nat
  | [], cur => cur
  | g :: rest, cur => if g.stop < startq then advanceGo startq rest (cur + 1) else cur

/-- The new cursor index computed by `advance` on a gene list. -/
def advancePos (gl : List Annot) (startq : Int) (cur : Nat) : Nat :=
  advanceGo startq (gl.drop cur) cur

/-- Embeds `AnnotationCursor.advance` (Annotations.py:512-523); the
`geneList` lookup raises for an unknown chromosome, hence `Except`. -/
def AnnotationCursor.advance (c : AnnotationCursor) (chr : String) (startq : Int) :
    Except String AnnotationCursor :=
  match c.annotList.geneList chr with
  | .error e => .error e
  | .ok top => .ok ⟨c.annotList,
      Function.update c.posit chr (advancePos top.childList startq (c.posit chr))⟩

/-- Embeds the generator loop of `AnnotationCursor.getOverlappingGenes`
(Annotations.py:549-558) on the suffix from the cursor: stop as soon as a
gene starts after `end`; yield genes on the right strand whose `end`
strictly exceeds `start`; skip (but do not stop at) other genes. -/
def scanGo (startq stopq : Int) (strand : String) : List Annot → List Annot
  | [] => []
  | g :: rest =>
    if g.start ≤ stopq then
      (if g.strand = strand ∧ g.stop > startq then [g] else []) ++
        scanGo startq stopq strand rest
    else []

/-- The gene list yielded by `getOverlappingGenes` when scanning `gl` from
index `curPos`. -/
def getOverlappingGenes (gl : List Annot) (curPos : Nat)
    (startq stopq : Int) (strand : String) : List Annot :=
  scanGo startq stopq strand (gl.drop curPos)

/-- Embeds `AnnotationCursor.getOverlappingGenes` at the cursor level (the
cursor position is read but not written). -/
def AnnotationCursor.getOverlappingGenes (c : AnnotationCursor) (chr : String)
    (startq stopq : Int) (strand : String) : Except String (List Annot) :=
  match c.annotList.geneList chr with
  | .error e => .error e
  | .ok top => .ok (MatchAnnot.getOverlappingGenes top.childList (c.posit chr) startq stopq strand)

/-- Concrete gene A of the spec's containment scenario: [10000, 20000]. -/
def geneA : Annot := .node 10000 20000 "+" "A" none

/-- Concrete gene B, nested within A: [12000, 18000]. -/
def geneB : Annot := .node 12000 18000 "+" "B" none

/-- A gene ending exactly at a query's start coordinate. -/
def geneC : Annot := .node 100 200 "+" "G1" none

/-- A gene starting exactly at a query's end coordinate. -/
def geneD : Annot := .node 300 320 "+" "G2" none

/-- A chromosome node holding genes A and B. -/
def chrTopW : Annot := .node 0 0 "+" "chr1" (some [geneA, geneB])

/-- A one-chromosome annotation index. -/
def annotListW : AnnotationList := ⟨[("chr1", chrTopW)]⟩

/-- A fresh cursor over `annotListW` (all offsets 0). -/
def cursorW : AnnotationCursor := ⟨annotListW, fun _ => 0⟩

/-- The ordering invariant of `Annot.addChild`: children (empty when
`None`) ascend by `start`. -/

def childrenSorted (a : Annot) : Prop :=
  a.childList.Pairwise (fun x y => x.start ≤ y.start)

/-- An out-of-order child for the C9 witness: starts between x1 and x3. -/
def nodeSortedW : Annot :=
  .node 0 1000 "+" "P" (some [.node 10 20 "+" "x1" none, .node 50 60 "+" "x3" none])

def childMidW : Annot := .node 30 40 "+" "x2" none

/-- A fragment of Python 3 runtime values, sufficient for the comparison
performed at matchAnnot.py:192: `None`, integers, and lists (the tracker
payload `[curGene, bestTran]`). -/

inductive PyVal : Type where
  | none : PyVal
  | int (n : Int) : PyVal
  | list (l : List PyVal) : PyVal

/-- Python 3 `>` on the value shapes reaching matchAnnot.py:192: ordered
comparison is defined between two ints; `None > int` and `list > int`
raise TypeError (Python 2 tolerated them, Python 3 does not).  The
comparisons never exercised there (list/list etc.) are irrelevant and also
mapped to the error case. -/
def pyGt : PyVal → PyVal → Except String Bool
  | .int a, .int b => .ok (decide (a > b))
  | _, _ => .error "TypeError: unorderable types"

/-- The tracker's `.which` attribute as the Python value read at
matchAnnot.py:192: `None` before any `update`, else the stored payload. -/
def whichPy (b : Best Nat PyVal) : PyVal :=
  match b.which with
  | Option.none => PyVal.none
  | Option.some w => w

/-- Embeds the per-read strand loop of `main` (matchAnnot.py:166-193),
abstracted over the per-gene matching results: `genesOn str` lists, in
cursor order, the `(bestScore, [curGene, bestTran])` pair each overlapping
gene on strand `str` contributes via `bestHit.update` (printing omitted).
After the first strand's genes are folded in, the source decides whether
to try the opposite strand with `if bestHit.which > 1: break` — comparing
the *payload* (a Python list, or None when no gene overlapped) against the
integer 1. -/
def tryStrands (strand : String) (genesOn : String → List (Nat × PyVal)) :
    Except String (Best Nat PyVal) :=
  let b1 := (Best.mk false Option.none).updates (genesOn strand)
  match pyGt (whichPy b1) (PyVal.int 1) with
  | .error e => .error e
  | .ok true => .ok b1
  | .ok false => .ok (b1.updates (genesOn (if strand = "+" then "-" else "+")))

/-- One aligned read on strand `+` overlapping a single `+` gene whose
best transcript scores 0; no genes on `-`. -/
def genesOnW : String → List (Nat × PyVal) := fun s =>
  if s = "+" then [(0, PyVal.list [PyVal.int 0, PyVal.int 1])] else []

/-- `getD` through `drop`: reading the suffix at relative index `k` reads the
original list at `p + k`. -/
theorem getD_drop {α : Type} (l : List α) (p k : Nat) (d : α) :
    (l.drop p).getD k d = l.getD (p + k) d := by
  rw [List.getD_eq_getElem?_getD, List.getD_eq_getElem?_getD, List.getElem?_drop]

theorem getD_mem_of_lt {α : Type} (l : List α) (j : Nat) (d : α) (h : j < l.length) :
    l.getD j d ∈ l := by
  rw [List.getD_eq_getElem?_getD, List.getElem?_eq_getElem h]
  exact List.getElem_mem h

theorem skipPast_le (s1 : Int) : ∀ (l : List Interval) (p : Nat),
    p ≤ skipPast s1 l p ∧ skipPast s1 l p ≤ p + l.length := by
  intro l
  induction l with
  | nil => intro p; simp [skipPast]
  | cons iv rest ih =>
    intro p
    simp only [skipPast]
    split
    · have h := ih (p + 1)
      constructor
      · omega
      · simp only [List.length_cons]; omega
    · simp

theorem skipPast_skipped (s1 : Int) : ∀ (l : List Interval) (p j : Nat),
    p ≤ j → j < skipPast s1 l p → (l.getD (j - p) dI).stop < s1 := by
  intro l
  induction l with
  | nil => intro p j _ h2; simp [skipPast] at h2; omega
  | cons iv rest ih =>
    intro p j h1 h2
    simp only [skipPast] at h2
    split at h2
    · rcases Nat.eq_or_lt_of_le h1 with rfl | hlt
      · simpa using ‹iv.stop < s1›
      · have := ih (p + 1) j hlt h2
        have hj : j - p = (j - (p + 1)) + 1 := by omega
        rw [hj, List.getD_cons_succ]
        exact this
    · omega

theorem skipPast_stop (s1 : Int) : ∀ (l : List Interval) (p : Nat),
    skipPast s1 l p - p < l.length → ¬ (l.getD (skipPast s1 l p - p) dI).stop < s1 := by
  intro l
  induction l with
  | nil => intro p h; simp [skipPast] at h
  | cons iv rest ih =>
    intro p h
    by_cases hc : iv.stop < s1
    · simp only [skipPast, if_pos hc] at h ⊢
      have hle := (skipPast_le s1 rest (p + 1)).1
      have hj : skipPast s1 rest (p + 1) - p = (skipPast s1 rest (p + 1) - (p + 1)) + 1 := by omega
      rw [hj] at h ⊢
      rw [List.getD_cons_succ]
      simp only [List.length_cons] at h
      exact ih (p + 1) (by omega)
    · simp only [skipPast, if_neg hc, Nat.sub_self, List.getD_cons_zero]
      exact hc

/-- Membership characterization of `collectOver` on a start-sorted list,
with relative indexing from the base index `p`. -/
theorem collectOver_mem (e1 : Int) : ∀ (l : List Interval) (p j : Nat),
    sortedBy Interval.start l →
    (j ∈ collectOver e1 l p ↔
      (p ≤ j ∧ j - p < l.length ∧ (l.getD (j - p) dI).start < e1)) := by
  intro l
  induction l with
  | nil => intro p j _; simp [collectOver]
  | cons iv rest ih =>
    intro p j hs
    rw [sortedBy, List.pairwise_cons] at hs
    simp only [collectOver]
    split
    · rename_i hlt
      rw [List.mem_cons]
      constructor
      · rintro (rfl | hmem)
        · simp only [Nat.sub_self, List.getD_cons_zero, List.length_cons]
          exact ⟨Nat.le_refl _, by omega, hlt⟩
        · have := (ih (p + 1) j hs.2).mp hmem
          have hj : j - p = (j - (p + 1)) + 1 := by omega
          rw [hj, List.getD_cons_succ, List.length_cons]
          exact ⟨by omega, by omega, this.2.2⟩
      · rintro ⟨h1, h2, h3⟩
        rcases Nat.eq_or_lt_of_le h1 with rfl | hlt'
        · exact Or.inl rfl
        · right
          apply (ih (p + 1) j hs.2).mpr
          have hj : j - p = (j - (p + 1)) + 1 := by omega
          rw [hj, List.getD_cons_succ] at h3
          simp only [List.length_cons] at h2
          exact ⟨hlt', by omega, h3⟩
    · rename_i hge
      simp only [List.not_mem_nil, false_iff, not_and]
      intro h1 h2 h3
      rcases Nat.eq_or_lt_of_le h1 with rfl | hlt'
      · simp only [Nat.sub_self, List.getD_cons_zero] at h3
        exact hge h3
      · have hj : j - p = (j - (p + 1)) + 1 := by omega
        rw [hj, List.getD_cons_succ] at h3
        simp only [List.length_cons] at h2
        have hmem : rest.getD (j - (p + 1)) dI ∈ rest := getD_mem_of_lt rest _ dI (by omega)
        have := hs.1 _ hmem
        exact hge (lt_of_le_of_lt this h3)

/-- Pairwise random access on a `sortedBy` list. -/
theorem sortedBy_getD_le (f : Interval → Int) (l : List Interval)
    (h : sortedBy f l) (i j : Nat) (hij : i ≤ j) (hj : j < l.length) :
    f (l.getD i dI) ≤ f (l.getD j dI) := by
  rcases Nat.eq_or_lt_of_le hij with rfl | hlt
  · exact le_refl _
  · rw [sortedBy, List.pairwise_iff_getElem] at h
    have hi : i < l.length := by omega
    have := h i j hi hj hlt
    rw [List.getD_eq_getElem?_getD, List.getElem?_eq_getElem hi,
        List.getD_eq_getElem?_getD, List.getElem?_eq_getElem hj]
    exact this

/-- Core characterization of the two-pointer sweep: provided `list2` is
sorted by both `start` and `end` and the remaining `list1` entries are
sorted by `start`, and every `list2` entry below the cursor `p` ends before
every remaining `list1` entry starts, row `i` of the sweep contains `j`
iff the pair passes the (non-strict low side) interval test. -/
theorem findOverlapsGo_mem (list2 : List Interval)
    (h2s : sortedBy Interval.start list2) (h2e : sortedBy Interval.stop list2) :
    ∀ (l1 : List Interval) (p : Nat), p ≤ list2.length →
    (∀ iv ∈ l1, ∀ k, k < p → (list2.getD k dI).stop < iv.start) →
    sortedBy Interval.start l1 →
    ∀ i j, (j ∈ (findOverlapsGo list2 l1 p).getD i [] ↔
      (i < l1.length ∧ j < list2.length ∧
        (l1.getD i dI).start ≤ (list2.getD j dI).stop ∧
        (list2.getD j dI).start < (l1.getD i dI).stop)) := by
  intro l1
  induction l1 with
  | nil => intro p _ _ _ i j; simp [findOverlapsGo]
  | cons iv1 rest1 ih =>
    intro p hp hinv hs1 i j
    rw [sortedBy, List.pairwise_cons] at hs1
    set q := skipPast iv1.start (list2.drop p) p with hq
    have hqle : p ≤ q ∧ q ≤ list2.length := by
      have := skipPast_le iv1.start (list2.drop p) p
      rw [List.length_drop] at this
      omega
    -- every index below q ends before iv1.start
    have hbelow : ∀ k, k < q → (list2.getD k dI).stop < iv1.start := by
      intro k hk
      by_cases hkp : k < p
      · exact hinv iv1 (List.mem_cons_self _ _) k hkp
      · have := skipPast_skipped iv1.start (list2.drop p) p k (by omega) hk
        rw [getD_drop] at this
        rwa [Nat.add_sub_cancel' (by omega)] at this
    -- if q is a real index, it does not end before iv1.start
    have hstop : q < list2.length → ¬ (list2.getD q dI).stop < iv1.start := by
      intro hql
      have := skipPast_stop iv1.start (list2.drop p) p
      rw [List.length_drop] at this
      have h2 := this (by omega)
      rw [getD_drop] at h2
      rwa [Nat.add_sub_cancel' (by omega)] at h2
    simp only [findOverlapsGo]
    match i with
    | 0 =>
      rw [List.getD_cons_zero]
      have hsorted_drop : sortedBy Interval.start (list2.drop q) :=
        List.Pairwise.sublist (List.drop_sublist _ _) h2s
      rw [collectOver_mem iv1.stop (list2.drop q) q j hsorted_drop]
      rw [List.length_drop, getD_drop]
      simp only [List.getD_cons_zero, List.length_cons]
      constructor
      · rintro ⟨hqj, hjl, hstart⟩
        rw [Nat.add_sub_cancel' hqj] at hstart
        have hjlen : j < list2.length := by omega
        refine ⟨by omega, hjlen, ?_, hstart⟩
        -- iv1.start ≤ stop_j : from stop-sortedness and the stop at q
        have hql : q < list2.length := by omega
        have h1 := hstop hql
        have h2 := sortedBy_getD_le Interval.stop list2 h2e q j hqj hjlen
        omega
      · rintro ⟨_, hjlen, hstart_le, hstop_lt⟩
        -- show q ≤ j
        have hqj : q ≤ j := by
          by_contra hlt
          push_neg at hlt
          have := hbelow j hlt
          omega
        refine ⟨hqj, by omega, ?_⟩
        rwa [Nat.add_sub_cancel' hqj]
    | Nat.succ i' =>
      rw [List.getD_cons_succ]
      have hinv' : ∀ iv ∈ rest1, ∀ k, k < q → (list2.getD k dI).stop < iv.start := by
        intro iv hmem k hk
        exact lt_of_lt_of_le (hbelow k hk) (hs1.1 iv hmem)
      rw [ih q hqle.2 hinv' hs1.2 i' j]
      simp only [List.length_cons, List.getD_cons_succ]
      omega

/-- The first component of `findOverlaps`, characterized on sorted,
containment-free input. -/
theorem findOverlaps_fst_mem (list1 list2 : List Interval)
    (h1 : sortedBy Interval.start list1)
    (h2s : sortedBy Interval.start list2) (h2e : sortedBy Interval.stop list2)
    (i j : Nat) :
    j ∈ (findOverlaps list1 list2).1.getD i [] ↔
      (i < list1.length ∧ j < list2.length ∧
        codeOverlap (list1.getD i dI) (list2.getD j dI)) := by
  unfold findOverlaps codeOverlap
  exact findOverlapsGo_mem list2 h2s h2e list1 0 (Nat.zero_le _) (by omega) h1 i j

/-- The second component of `findOverlaps` is, by construction, the
index-transpose of the first. -/
theorem findOverlaps_snd_mem (list1 list2 : List Interval) (i j : Nat) :
    i ∈ (findOverlaps list1 list2).2.getD j [] ↔
      (j < list2.length ∧ i < list1.length ∧
        j ∈ (findOverlaps list1 list2).1.getD i []) := by
  unfold findOverlaps
  simp only []
  by_cases hj : j < list2.length
  · have : ((List.range list2.length).map
        (fun j => (List.range list1.length).filter
          (fun i => ((findOverlapsGo list2 list1 0).getD i []).contains j))).getD j []
        = (List.range list1.length).filter
            (fun i => ((findOverlapsGo list2 list1 0).getD i []).contains j) := by
      rw [List.getD_eq_getElem?_getD, List.getElem?_map, List.getElem?_range hj]
      rfl
    rw [this, List.mem_filter]
    simp only [List.mem_range]
    constructor
    · rintro ⟨hi, hc⟩
      exact ⟨hj, hi, by simpa using hc⟩
    · rintro ⟨_, hi, hmem⟩
      exact ⟨hi, by simpa using hmem⟩
  · have : ((List.range list2.length).map
        (fun j => (List.range list1.length).filter
          (fun i => ((findOverlapsGo list2 list1 0).getD i []).contains j))).getD j [] = [] := by
      rw [List.getD_eq_getElem?_getD]
      have : ((List.range list2.length).map
        (fun j => (List.range list1.length).filter
          (fun i => ((findOverlapsGo list2 list1 0).getD i []).contains j)))[j]? = none := by
        rw [List.getElem?_eq_none]
        simpa using by omega
      rw [this]; rfl
    rw [this]
    simp [hj]

/-- C1 counterexample: with A = [[5,10]] and B = [[3,5]] (both trivially
sorted by start), `findOverlaps` records index 0 in the overlap list of
A's element 0, yet the spec's strict test `s1 < e2 ∧ s2 < e1` fails for
that pair (5 < 5 is false): the computed structure is NOT the brute-force
application of the strict test. -/
theorem findOverlaps_strict_test_fails :
    0 ∈ ((findOverlaps [⟨5,10⟩] [⟨3,5⟩]).1.getD 0 []) ∧
      ¬ specOverlap (⟨5,10⟩ : Interval) (⟨3,5⟩ : Interval) := by
  constructor
  · decide
  · decide

/-- C1 amended: on lists sorted ascending by start, where additionally the
second list is sorted ascending by end (no interval of B properly contains
a later-starting one — true of exon lists), `findOverlaps` records j in the
overlap list of A's element i iff `s1 ≤ e2 ∧ s2 < e1`: non-strict on the
low side, unlike the spec's `s1 < e2 ∧ s2 < e1`. -/
theorem findOverlaps_eq_bruteforce (list1 list2 : List Interval)
    (h1 : sortedBy Interval.start list1)
    (h2s : sortedBy Interval.start list2) (h2e : sortedBy Interval.stop list2) :
    ∀ i j, (j ∈ (findOverlaps list1 list2).1.getD i [] ↔
      (i < list1.length ∧ j < list2.length ∧
        codeOverlap (list1.getD i dI) (list2.getD j dI)))
      ∧ (i ∈ (findOverlaps list1 list2).2.getD j [] ↔
      (i < list1.length ∧ j < list2.length ∧
        codeOverlap (list1.getD i dI) (list2.getD j dI))) := by
  intro i j
  constructor
  · exact findOverlaps_fst_mem list1 list2 h1 h2s h2e i j
  · rw [findOverlaps_snd_mem, findOverlaps_fst_mem list1 list2 h1 h2s h2e i j]
    tauto

theorem findOverlaps_eq_bruteforce_witness :
    (sortedBy Interval.start [⟨1,5⟩,⟨6,10⟩] ∧ sortedBy Interval.start [⟨2,3⟩,⟨7,9⟩] ∧
      sortedBy Interval.stop [⟨2,3⟩,⟨7,9⟩]) ∧
    ((1 ∈ (findOverlaps [⟨1,5⟩,⟨6,10⟩] [⟨2,3⟩,⟨7,9⟩]).1.getD 1 [] ↔
      (1 < 2 ∧ 1 < 2 ∧ codeOverlap (⟨6,10⟩ : Interval) (⟨7,9⟩ : Interval)))) := by
  refine ⟨⟨by decide, by decide, by decide⟩, ?_⟩
  have h := (findOverlaps_eq_bruteforce [⟨1,5⟩,⟨6,10⟩] [⟨2,3⟩,⟨7,9⟩]
    (by decide) (by decide) (by decide) 1 1).1
  simpa using h

/-- C2 counterexample: with A = [[5,10]], B = [[3,5]] (sorted), the call
`findOverlaps(A,B)` records the pair (0,0) but `findOverlaps(B,A)` records
nothing: the two calls are not transposes of each other.  The asymmetry is
the touching boundary `A[0].start = B[0].end`. -/
theorem findOverlaps_transpose_fails :
    0 ∈ ((findOverlaps [⟨5,10⟩] [⟨3,5⟩]).1.getD 0 []) ∧
      0 ∉ ((findOverlaps [⟨3,5⟩] [⟨5,10⟩]).2.getD 0 []) := by
  constructor
  · decide
  · decide

/-- C2 amended: transposition between `findOverlaps(A,B)` and
`findOverlaps(B,A)` holds when both lists are sorted ascending by start
and by end, and additionally no interval of one list starts exactly where
an interval of the other ends (at such touching boundaries the sweep's
non-strict low-side test breaks the symmetry). -/
theorem findOverlaps_transpose_iff (A B : List Interval)
    (hAs : sortedBy Interval.start A) (hAe : sortedBy Interval.stop A)
    (hBs : sortedBy Interval.start B) (hBe : sortedBy Interval.stop B)
    (hnt : ∀ a ∈ A, ∀ b ∈ B, a.start ≠ b.stop ∧ b.start ≠ a.stop) :
    ∀ i j, (j ∈ (findOverlaps A B).1.getD i [] ↔ i ∈ (findOverlaps B A).1.getD j [])
      ∧ (i ∈ (findOverlaps A B).2.getD j [] ↔ j ∈ (findOverlaps B A).2.getD i []) := by
  intro i j
  have hAB := findOverlaps_fst_mem A B hAs hBs hBe i j
  have hBA := findOverlaps_fst_mem B A hBs hAs hAe j i
  have hAB2 := findOverlaps_snd_mem A B i j
  have hBA2 := findOverlaps_snd_mem B A j i
  have key : (i < A.length ∧ j < B.length ∧ codeOverlap (A.getD i dI) (B.getD j dI)) ↔
      (j < B.length ∧ i < A.length ∧ codeOverlap (B.getD j dI) (A.getD i dI)) := by
    unfold codeOverlap
    constructor
    · rintro ⟨hi, hj, h1, h2⟩
      have hne := hnt _ (getD_mem_of_lt A i dI hi) _ (getD_mem_of_lt B j dI hj)
      exact ⟨hj, hi, le_of_lt h2, lt_of_le_of_ne h1 hne.1⟩
    · rintro ⟨hj, hi, h1, h2⟩
      have hne := hnt _ (getD_mem_of_lt A i dI hi) _ (getD_mem_of_lt B j dI hj)
      exact ⟨hi, hj, le_of_lt h2, lt_of_le_of_ne h1 hne.2⟩
  constructor
  · exact hAB.trans (key.trans hBA.symm)
  · constructor
    · intro h
      obtain ⟨hj, hi, hm⟩ := hAB2.mp h
      exact hBA2.mpr ⟨hi, hj, hBA.mpr (key.mp (hAB.mp hm))⟩
    · intro h
      obtain ⟨hi, hj, hm⟩ := hBA2.mp h
      exact hAB2.mpr ⟨hj, hi, hAB.mpr (key.mpr (hBA.mp hm))⟩

theorem findOverlaps_transpose_iff_witness :
    (sortedBy Interval.start [⟨1,5⟩,⟨6,10⟩] ∧ sortedBy Interval.stop [⟨1,5⟩,⟨6,10⟩] ∧
     sortedBy Interval.start [⟨2,3⟩,⟨7,9⟩] ∧ sortedBy Interval.stop [⟨2,3⟩,⟨7,9⟩] ∧
     (∀ a ∈ ([⟨1,5⟩,⟨6,10⟩] : List Interval), ∀ b ∈ ([⟨2,3⟩,⟨7,9⟩] : List Interval),
       a.start ≠ b.stop ∧ b.start ≠ a.stop)) ∧
    (1 ∈ (findOverlaps [⟨1,5⟩,⟨6,10⟩] [⟨2,3⟩,⟨7,9⟩]).1.getD 1 [] ↔
      1 ∈ (findOverlaps [⟨2,3⟩,⟨7,9⟩] [⟨1,5⟩,⟨6,10⟩]).1.getD 1 []) := by
  refine ⟨⟨by decide, by decide, by decide, by decide, by decide⟩, ?_⟩
  exact (findOverlaps_transpose_iff [⟨1,5⟩,⟨6,10⟩] [⟨2,3⟩,⟨7,9⟩]
    (by decide) (by decide) (by decide) (by decide)
    (by decide) 1 1).1

theorem combineBest_none_right {α : Type} (rev : Bool)
    (a : Option (Nat × α)) : combineBest rev a none = a := by
  cases a <;> rfl

theorem update_held {α : Type} (rev : Bool) (h : Option (Nat × α))
    (v : Nat) (w : α) :
    (Best.update ⟨rev, h⟩ v w).held = combineBest rev h (some (v, w)) := by
  cases h with
  | none => rfl
  | some p =>
    cases p with
    | mk cv cw =>
      by_cases hc : (if rev = true then v < cv else cv < v)
      · simp [Best.update, combineBest, hc]
      · simp [Best.update, combineBest, hc]

theorem update_reverse {α : Type} (rev : Bool) (h : Option (Nat × α))
    (v : Nat) (w : α) :
    (Best.update ⟨rev, h⟩ v w).reverse = rev := by
  cases h with
  | none => rfl
  | some p =>
    cases p with
    | mk cv cw =>
      by_cases hc : (if rev = true then v < cv else cv < v)
      · simp [Best.update, hc]
      · simp [Best.update, hc]

theorem cbf_lt {α : Type} (p q : Nat × α) (h : p.1 < q.1) :
    combineBest false (some p) (some q) = some q := by simp [combineBest, h]

theorem cbf_ge {α : Type} (p q : Nat × α) (h : ¬ p.1 < q.1) :
    combineBest false (some p) (some q) = some p := by simp [combineBest, h]

theorem cbt_lt {α : Type} (p q : Nat × α) (h : q.1 < p.1) :
    combineBest true (some p) (some q) = some q := by simp [combineBest, h]

theorem cbt_ge {α : Type} (p q : Nat × α) (h : ¬ q.1 < p.1) :
    combineBest true (some p) (some q) = some p := by simp [combineBest, h]

theorem combineBest_assoc {α : Type} (rev : Bool)
    (a b c : Option (Nat × α)) :
    combineBest rev (combineBest rev a b) c = combineBest rev a (combineBest rev b c) := by
  rcases a with _ | p
  · rfl
  rcases b with _ | q
  · rfl
  rcases c with _ | r
  · rw [combineBest_none_right, combineBest_none_right]
  · cases rev with
    | false =>
      by_cases h1 : p.1 < q.1
      · rw [cbf_lt p q h1]
        by_cases h2 : q.1 < r.1
        · rw [cbf_lt q r h2, cbf_lt p r (by omega)]
        · rw [cbf_ge q r h2, cbf_lt p q h1]
      · rw [cbf_ge p q h1]
        by_cases h2 : q.1 < r.1
        · rw [cbf_lt q r h2]
        · rw [cbf_ge q r h2, cbf_ge p q h1, cbf_ge p r (by omega)]
    | true =>
      by_cases h1 : q.1 < p.1
      · rw [cbt_lt p q h1]
        by_cases h2 : r.1 < q.1
        · rw [cbt_lt q r h2, cbt_lt p r (by omega)]
        · rw [cbt_ge q r h2, cbt_lt p q h1]
      · rw [cbt_ge p q h1]
        by_cases h2 : r.1 < q.1
        · rw [cbt_lt q r h2]
        · rw [cbt_ge q r h2, cbt_ge p q h1, cbt_ge p r (by omega)]

/-- A tracker run is the left-biased strict-extremum of its stream. -/
theorem updates_held {α : Type} (rev : Bool) :
    ∀ (l : List (Nat × α)) (h : Option (Nat × α)),
    ((Best.updates ⟨rev, h⟩ l).held) = combineBest rev h (runBest rev l) := by
  intro l
  induction l with
  | nil => intro h; rw [Best.updates, runBest, combineBest_none_right]
  | cons p rest ih =>
    intro h
    cases p with
    | mk v w =>
      have hstep : Best.update (⟨rev, h⟩ : Best Nat α) v w =
          ⟨rev, combineBest rev h (some (v, w))⟩ := by
        have h1 := update_held rev h v w
        have h2 := update_reverse rev h v w
        cases hb : Best.update (⟨rev, h⟩ : Best Nat α) v w with
        | mk r hh => rw [hb] at h1 h2; simp at h1 h2; rw [h1, h2]
      rw [Best.updates, hstep, ih, runBest, ← combineBest_assoc]

theorem runBest_mem {α : Type} (rev : Bool) :
    ∀ (l : List (Nat × α)) (p : Nat × α), runBest rev l = some p → p ∈ l := by
  intro l
  induction l with
  | nil => intro p h; simp [runBest] at h
  | cons q rest ih =>
    intro p h
    rw [runBest] at h
    cases hr : runBest rev rest with
    | none => rw [hr, combineBest_none_right] at h; simp at h; simp [h]
    | some p' =>
      rw [hr] at h
      have hcb : combineBest rev (some q) (some p') = some p' ∨
          combineBest rev (some q) (some p') = some q := by
        simp only [combineBest]
        split <;> split <;> first | exact Or.inl rfl | exact Or.inr rfl
      rcases hcb with hcb | hcb <;> rw [hcb] at h
      · have hp : p' = p := Option.some.inj h
        exact List.mem_cons_of_mem q (hp ▸ ih p' hr)
      · have hq : q = p := Option.some.inj h
        exact hq ▸ List.mem_cons_self q rest

theorem runBest_isSome {α : Type} (rev : Bool) (l : List (Nat × α)) (hl : l ≠ []) :
    (runBest rev l).isSome := by
  cases l with
  | nil => exact absurd rfl hl
  | cons q rest =>
    rw [runBest]
    cases hr : runBest rev rest with
    | none => rw [combineBest_none_right]; rfl
    | some p' =>
      simp only [combineBest]
      split <;> split <;> rfl

/-- With `reverse` set, the tracker holds a minimal value of the stream. -/
theorem runBest_min {α : Type} :
    ∀ (l : List (Nat × α)) (p : Nat × α), runBest true l = some p →
      ∀ q ∈ l, p.1 ≤ q.1 := by
  intro l
  induction l with
  | nil => intro p h; simp [runBest] at h
  | cons a rest ih =>
    intro p h q hq
    rw [runBest] at h
    cases hr : runBest true rest with
    | none =>
      rw [hr, combineBest_none_right] at h
      have ha : a = p := Option.some.inj h
      subst ha
      have hre : rest = [] := by
        cases hrest : rest with
        | nil => rfl
        | cons b l' =>
          have := runBest_isSome true rest (by rw [hrest]; simp)
          rw [hr] at this; simp at this
      rcases List.mem_cons.mp hq with rfl | hmem
      · exact le_refl _
      · rw [hre] at hmem; simp at hmem
    | some p' =>
      rw [hr] at h
      by_cases hc : p'.1 < a.1
      · rw [cbt_lt a p' hc] at h
        have hp : p' = p := Option.some.inj h
        subst hp
        rcases List.mem_cons.mp hq with rfl | hmem
        · exact le_of_lt hc
        · exact ih p' hr q hmem
      · rw [cbt_ge a p' hc] at h
        have hp : a = p := Option.some.inj h
        subst hp
        rcases List.mem_cons.mp hq with rfl | hmem
        · exact le_refl _
        · have := ih p' hr q hmem
          omega

/-- With `reverse` set and strictly increasing payloads, ties are broken in
favor of the earliest entry. -/
theorem runBest_first {α : Type} (f : α → Nat) :
    ∀ (l : List (Nat × α)), l.Pairwise (fun x y => f x.2 < f y.2) →
      ∀ (p : Nat × α), runBest true l = some p →
      ∀ q ∈ l, q.1 = p.1 → f p.2 ≤ f q.2 := by
  intro l
  induction l with
  | nil => intro _ p h; simp [runBest] at h
  | cons a rest ih =>
    intro hs p h q hq hval
    rw [List.pairwise_cons] at hs
    rw [runBest] at h
    cases hr : runBest true rest with
    | none =>
      rw [hr, combineBest_none_right] at h
      have ha : a = p := Option.some.inj h
      subst ha
      rcases List.mem_cons.mp hq with rfl | hmem
      · exact le_refl _
      · exact le_of_lt (hs.1 q hmem)
    | some p' =>
      rw [hr] at h
      by_cases hc : p'.1 < a.1
      · rw [cbt_lt a p' hc] at h
        have hp : p' = p := Option.some.inj h
        subst hp
        rcases List.mem_cons.mp hq with rfl | hmem
        · omega
        · exact ih hs.2 p' hr q hmem hval
      · rw [cbt_ge a p' hc] at h
        have hp : a = p := Option.some.inj h
        subst hp
        rcases List.mem_cons.mp hq with rfl | hmem
        · exact le_refl _
        · exact le_of_lt (hs.1 q hmem)

/-- Without `reverse`, the tracker holds a maximal value of the stream. -/
theorem runBest_max {α : Type} :
    ∀ (l : List (Nat × α)) (p : Nat × α), runBest false l = some p →
      ∀ q ∈ l, q.1 ≤ p.1 := by
  intro l
  induction l with
  | nil => intro p h; simp [runBest] at h
  | cons a rest ih =>
    intro p h q hq
    rw [runBest] at h
    cases hr : runBest false rest with
    | none =>
      rw [hr, combineBest_none_right] at h
      have ha : a = p := Option.some.inj h
      subst ha
      have hre : rest = [] := by
        cases hrest : rest with
        | nil => rfl
        | cons b l' =>
          have := runBest_isSome false rest (by rw [hrest]; simp)
          rw [hr] at this; simp at this
      rcases List.mem_cons.mp hq with rfl | hmem
      · exact le_refl _
      · rw [hre] at hmem; simp at hmem
    | some p' =>
      rw [hr] at h
      by_cases hc : a.1 < p'.1
      · rw [cbf_lt a p' hc] at h
        have hp : p' = p := Option.some.inj h
        subst hp
        rcases List.mem_cons.mp hq with rfl | hmem
        · exact le_of_lt hc
        · exact ih p' hr q hmem
      · rw [cbf_ge a p' hc] at h
        have hp : a = p := Option.some.inj h
        subst hp
        rcases List.mem_cons.mp hq with rfl | hmem
        · exact le_refl _
        · have := ih p' hr q hmem
          omega

/-- Folding updates distributes over list append. -/
theorem Best.updates_append {β α : Type} [LinearOrder β] :
    ∀ (l1 l2 : List (β × α)) (b : Best β α),
    b.updates (l1 ++ l2) = (b.updates l1).updates l2 := by
  intro l1
  induction l1 with
  | nil => intro l2 b; rfl
  | cons p rest ih =>
    intro l2 b
    cases p with
    | mk v w => rw [List.cons_append, Best.updates, Best.updates, ih]

/-- One step of the first loop, re-expressed through `tranScore` and the
pair streams. -/
theorem pass1Step_eq (readExons : List Interval) (ix : Nat) (t : List Interval)
    (st : MTState) :
    pass1Step readExons ix t st =
      ⟨st.scores ++ [tranScore readExons t],
       st.bestScore.update (tranScore readExons t) ix,
       st.bestTrunc.updates
         (if tranScore readExons t = 4 then [(truncAmt readExons t, ix)] else []),
       st.bestHits.updates
         (if canMatch (findOverlaps readExons t).1 then
           [(numHitsOf (findOverlaps readExons t).1, ix)] else [])⟩ := by
  cases st with
  | mk scores bestScore bestTrunc bestHits =>
    unfold pass1Step tranScore
    by_cases h1 : canMatch (findOverlaps readExons t).1
    · by_cases h2 : isMatch (findOverlaps readExons t).1 (findOverlaps readExons t).2
      · by_cases h3 : internalMatch readExons t
        · simp [h1, h2, h3, Best.updates]
        · simp [h1, h2, h3, Best.updates]
      · simp [h1, h2, Best.updates]
    · simp [h1, Best.updates]

/-- The first loop of `matchTranscripts`, fully characterized: the scores
list extends by the per-transcript pass-1 scores, and each tracker is the
fold of its pair stream. -/
theorem pass1_spec (readExons : List Interval) :
    ∀ (g : List (List Interval)) (ix : Nat) (st : MTState),
    pass1 readExons g ix st =
      ⟨st.scores ++ g.map (tranScore readExons),
       st.bestScore.updates (scorePairs readExons ix g),
       st.bestTrunc.updates (truncPairs readExons ix g),
       st.bestHits.updates (hitPairs readExons ix g)⟩ := by
  intro g
  induction g with
  | nil =>
    intro ix st
    cases st with
    | mk a b c d => simp [pass1, Best.updates, scorePairs, truncPairs, hitPairs]
  | cons t rest ih =>
    intro ix st
    rw [pass1, pass1Step_eq, ih]
    cases st with
    | mk a b c d =>
      simp only [scorePairs, truncPairs, hitPairs, List.map_cons, Best.updates,
        Best.updates_append, List.append_assoc, List.singleton_append]

/-- Pass-1 scores are 0, 1, 3 or 4. -/
theorem tranScore_cases (readExons t : List Interval) :
    tranScore readExons t = 0 ∨ tranScore readExons t = 1 ∨
    tranScore readExons t = 3 ∨ tranScore readExons t = 4 := by
  unfold tranScore
  by_cases h1 : canMatch (findOverlaps readExons t).1
  · by_cases h2 : isMatch (findOverlaps readExons t).1 (findOverlaps readExons t).2
    · by_cases h3 : internalMatch readExons t
      · simp [h1, h2, h3]
      · simp [h1, h2, h3]
    · simp [h1, h2]
  · simp [h1]

theorem scorePairs_mem (readExons : List Interval) :
    ∀ (g : List (List Interval)) (ix : Nat) (q : Nat × Nat),
    q ∈ scorePairs readExons ix g ↔
      ∃ k, k < g.length ∧ q = (tranScore readExons (g.getD k []), ix + k) := by
  intro g
  induction g with
  | nil => intro ix q; simp [scorePairs]
  | cons t rest ih =>
    intro ix q
    rw [scorePairs, List.mem_cons, ih (ix + 1) q]
    constructor
    · rintro (rfl | ⟨k, hk, rfl⟩)
      · exact ⟨0, by simp⟩
      · exact ⟨k + 1, by simpa using hk, by simp [List.getD_cons_succ]; omega⟩
    · rintro ⟨k, hk, rfl⟩
      match k with
      | 0 => left; simp
      | Nat.succ k' =>
        right
        refine ⟨k', by simpa using hk, ?_⟩
        simp [List.getD_cons_succ]
        omega

theorem truncPairs_mem (readExons : List Interval) :
    ∀ (g : List (List Interval)) (ix : Nat) (q : Nat × Nat),
    q ∈ truncPairs readExons ix g ↔
      ∃ k, k < g.length ∧ tranScore readExons (g.getD k []) = 4 ∧
        q = (truncAmt readExons (g.getD k []), ix + k) := by
  intro g
  induction g with
  | nil => intro ix q; simp [truncPairs]
  | cons t rest ih =>
    intro ix q
    rw [truncPairs, List.mem_append, ih (ix + 1) q]
    constructor
    · rintro (hin | ⟨k, hk, h4, rfl⟩)
      · by_cases h4 : tranScore readExons t = 4
        · rw [if_pos h4] at hin
          simp at hin
          exact ⟨0, by simp, by simpa using h4, by simp [hin]⟩
        · rw [if_neg h4] at hin; simp at hin
      · exact ⟨k + 1, by simpa using hk, by simpa using h4,
          by simp [List.getD_cons_succ]; omega⟩
    · rintro ⟨k, hk, h4, rfl⟩
      match k with
      | 0 =>
        left
        simp only [List.getD_cons_zero] at h4 ⊢
        rw [if_pos h4]
        simp
      | Nat.succ k' =>
        right
        refine ⟨k', by simpa using hk, by simpa using h4, ?_⟩
        simp [List.getD_cons_succ]
        omega

/-- The payloads in `truncPairs` are at least the base index. -/
theorem truncPairs_payload_ge (readExons : List Interval) :
    ∀ (g : List (List Interval)) (ix : Nat) (q : Nat × Nat),
    q ∈ truncPairs readExons ix g → ix ≤ q.2 := by
  intro g ix q hq
  obtain ⟨k, _, _, rfl⟩ := (truncPairs_mem readExons g ix q).mp hq
  simp

/-- The payloads in `truncPairs` strictly increase. -/
theorem truncPairs_pairwise (readExons : List Interval) :
    ∀ (g : List (List Interval)) (ix : Nat),
    (truncPairs readExons ix g).Pairwise (fun x y => x.2 < y.2) := by
  intro g
  induction g with
  | nil => intro ix; simp [truncPairs]
  | cons t rest ih =>
    intro ix
    rw [truncPairs, List.pairwise_append]
    refine ⟨?_, ih (ix + 1), ?_⟩
    · split <;> simp
    · intro a ha b hb
      have hb' := truncPairs_payload_ge readExons rest (ix + 1) b hb
      split at ha
      · simp at ha
        rw [ha]
        exact Nat.lt_of_lt_of_le (Nat.lt_succ_self ix) hb'
      · simp at ha

/-- `truncPairs` is nonempty iff some transcript has pass-1 score 4. -/
theorem truncPairs_ne_nil (readExons : List Interval) (g : List (List Interval))
    (k : Nat) (hk : k < g.length) (h4 : tranScore readExons (g.getD k []) = 4) :
    truncPairs readExons 0 g ≠ [] := by
  intro hnil
  have : (truncAmt readExons (g.getD k []), 0 + k) ∈ truncPairs readExons 0 g :=
    (truncPairs_mem readExons g 0 _).mpr ⟨k, hk, h4, rfl⟩
  rw [hnil] at this
  simp at this

/-- Structure-level version of `updates_held`. -/
theorem updates_eq {α : Type} (rev : Bool) :
    ∀ (l : List (Nat × α)) (h : Option (Nat × α)),
    (Best.updates ⟨rev, h⟩ l) = ⟨rev, combineBest rev h (runBest rev l)⟩ := by
  intro l
  induction l with
  | nil => intro h; rw [Best.updates, runBest, combineBest_none_right]
  | cons p rest ih =>
    intro h
    cases p with
    | mk v w =>
      have hstep : Best.update (⟨rev, h⟩ : Best Nat α) v w =
          ⟨rev, combineBest rev h (some (v, w))⟩ := by
        have h1 := update_held rev h v w
        have h2 := update_reverse rev h v w
        cases hb : Best.update (⟨rev, h⟩ : Best Nat α) v w with
        | mk r hh => rw [hb] at h1 h2; simp at h1 h2; rw [h1, h2]
      rw [Best.updates, hstep, ih, runBest, ← combineBest_assoc]

/-- The state of `matchTranscripts` after pass 1, from the initial empty
state. -/
theorem pass1_run (readExons : List Interval) (g : List (List Interval)) :
    pass1 readExons g 0 ⟨[], Best.start false, Best.start true, Best.start false⟩ =
      ⟨g.map (tranScore readExons),
       ⟨false, runBest false (scorePairs readExons 0 g)⟩,
       ⟨true, runBest true (truncPairs readExons 0 g)⟩,
       ⟨false, runBest false (hitPairs readExons 0 g)⟩⟩ := by
  rw [pass1_spec]
  rw [show (Best.start false : Best Nat Nat) = ⟨false, none⟩ from rfl,
      show (Best.start true : Best Nat Nat) = ⟨true, none⟩ from rfl]
  rw [updates_eq, updates_eq, updates_eq]
  rfl

/-- C5: if at least one transcript of the gene reaches pass-1 score 4,
`matchTranscripts` promotes to 5 exactly one transcript: one with score 4
and minimal truncation distance, and of least index among those tying on
the minimum (all other scores unchanged). -/
theorem matchTranscripts_promotes_best4 (re : List Interval)
    (g : List (List Interval))
    (h : ∃ i, i < g.length ∧ tranScore re (g.getD i []) = 4) :
    ∃ w, w < g.length ∧ tranScore re (g.getD w []) = 4 ∧
      (∀ i, i < g.length → tranScore re (g.getD i []) = 4 →
        truncAmt re (g.getD w []) ≤ truncAmt re (g.getD i []) ∧
        (truncAmt re (g.getD i []) = truncAmt re (g.getD w []) → w ≤ i)) ∧
      matchTranscriptsScores re g = (g.map (tranScore re)).set w 5 := by
  obtain ⟨k, hk, h4⟩ := h
  -- the bestTrunc tracker holds a pair
  have htne := truncPairs_ne_nil re g k hk h4
  obtain ⟨p, hp⟩ : ∃ p, runBest true (truncPairs re 0 g) = some p := by
    cases ht : runBest true (truncPairs re 0 g) with
    | none =>
      have := runBest_isSome true (truncPairs re 0 g) htne
      rw [ht] at this; simp at this
    | some p => exact ⟨p, rfl⟩
  -- characterize the held pair
  have hpmem := runBest_mem true (truncPairs re 0 g) p hp
  obtain ⟨k', hk', h4', hpeq⟩ := (truncPairs_mem re g 0 p).mp hpmem
  -- the bestScore tracker holds value 4
  have hsne : scorePairs re 0 g ≠ [] := by
    cases hg : g with
    | nil => rw [hg] at hk; simp at hk
    | cons t rest => simp [scorePairs]
  obtain ⟨q, hq⟩ : ∃ q, runBest false (scorePairs re 0 g) = some q := by
    cases hs : runBest false (scorePairs re 0 g) with
    | none =>
      have := runBest_isSome false (scorePairs re 0 g) hsne
      rw [hs] at this; simp at this
    | some q => exact ⟨q, rfl⟩
  have hq4 : q.1 = 4 := by
    have hub := runBest_max (scorePairs re 0 g) q hq
    have hin : (tranScore re (g.getD k []), 0 + k) ∈ scorePairs re 0 g :=
      (scorePairs_mem re g 0 _).mpr ⟨k, hk, rfl⟩
    have h1 : 4 ≤ q.1 := by
      have := hub _ hin
      rw [h4] at this
      exact this
    have h2 : q.1 ≤ 4 := by
      obtain ⟨k'', hk'', hqeq⟩ := (scorePairs_mem re g 0 q).mp (runBest_mem false _ q hq)
      have hq1 : q.1 = tranScore re (g.getD k'' []) := by rw [hqeq]
      rcases tranScore_cases re (g.getD k'' []) with hc | hc | hc | hc <;> omega
    omega
  refine ⟨p.2, ?_, ?_, ?_, ?_⟩
  · rw [hpeq]; simpa using hk'
  · rw [hpeq]; simpa using h4'
  · intro i hi hi4
    have hintp : (truncAmt re (g.getD i []), 0 + i) ∈ truncPairs re 0 g :=
      (truncPairs_mem re g 0 _).mpr ⟨i, hi, hi4, rfl⟩
    constructor
    · have := runBest_min (truncPairs re 0 g) p hp _ hintp
      rw [hpeq] at this ⊢
      simpa using this
    · intro htie
      have := runBest_first (fun n => n) (truncPairs re 0 g)
        (truncPairs_pairwise re g 0) p hp _ hintp
        (by rw [hpeq] at htie ⊢; simpa using htie)
      simpa using this
  · unfold matchTranscriptsScores
    rw [pass1_run]
    have hval : (⟨false, runBest false (scorePairs re 0 g)⟩ : Best Nat Nat).value = some 4 := by
      simp [Best.value, hq, hq4]
    rw [if_pos hval]
    have hwhich : (⟨true, runBest true (truncPairs re 0 g)⟩ : Best Nat Nat).which = some p.2 := by
      simp [Best.which, hp]
    rw [hwhich]

theorem matchTranscripts_promotes_best4_witness :
    (∃ i, i < geneW.length ∧ tranScore reW (geneW.getD i []) = 4) ∧
    (∃ w, w < geneW.length ∧ tranScore reW (geneW.getD w []) = 4 ∧
      (∀ i, i < geneW.length → tranScore reW (geneW.getD i []) = 4 →
        truncAmt reW (geneW.getD w []) ≤ truncAmt reW (geneW.getD i []) ∧
        (truncAmt reW (geneW.getD i []) = truncAmt reW (geneW.getD w []) → w ≤ i)) ∧
      matchTranscriptsScores reW geneW = (geneW.map (tranScore reW)).set w 5) := by
  have hhyp : ∃ i, i < geneW.length ∧ tranScore reW (geneW.getD i []) = 4 :=
    ⟨0, by decide⟩
  exact ⟨hhyp, matchTranscripts_promotes_best4 reW geneW hhyp⟩

/-- After the first loop, the promoted result is the pass-1 scores with at
most one position set to 5 or (exclusively) at most one set to 2. -/
theorem matchTranscriptsScores_shape (re : List Interval) (g : List (List Interval)) :
    matchTranscriptsScores re g = g.map (tranScore re) ∨
    (∃ w, matchTranscriptsScores re g = (g.map (tranScore re)).set w 5) ∨
    (∃ w, matchTranscriptsScores re g = (g.map (tranScore re)).set w 2) := by
  unfold matchTranscriptsScores
  rw [pass1_run]
  by_cases h4 : (⟨false, runBest false (scorePairs re 0 g)⟩ : Best Nat Nat).value = some 4
  · rw [if_pos h4]
    cases hw : (⟨true, runBest true (truncPairs re 0 g)⟩ : Best Nat Nat).which with
    | none => left; rfl
    | some w => right; left; exact ⟨w, rfl⟩
  · rw [if_neg h4]
    by_cases h1 : (⟨false, runBest false (scorePairs re 0 g)⟩ : Best Nat Nat).value = some 1
    · rw [if_pos h1]
      cases hw : (⟨false, runBest false (hitPairs re 0 g)⟩ : Best Nat Nat).which with
      | none => left; rfl
      | some w => right; right; exact ⟨w, rfl⟩
    · rw [if_neg h1]; left; rfl

/-- 5 and 2 never occur among pass-1 scores. -/
theorem base_count_eq_zero (re : List Interval) (g : List (List Interval))
    (a : Nat) (ha5 : a = 5 ∨ a = 2) :
    (g.map (tranScore re)).count a = 0 := by
  rw [List.count_eq_zero]
  intro hmem
  obtain ⟨t, _, heq⟩ := List.mem_map.mp hmem
  rcases tranScore_cases re t with hc | hc | hc | hc <;> rw [hc] at heq <;> omega

theorem count_set_same_le (l : List Nat) (w a : Nat) :
    (l.set w a).count a ≤ l.count a + 1 := by
  by_cases hw : w < l.length
  · rw [List.count_set a a l w hw]
    simp only [beq_self_eq_true, if_true]
    split <;> omega
  · rw [List.set_eq_of_length_le (by omega)]
    omega

theorem count_set_other_le (l : List Nat) (w a b : Nat) (hab : (a == b) = false) :
    (l.set w a).count b ≤ l.count b := by
  by_cases hw : w < l.length
  · rw [List.count_set a b l w hw, hab]
    simp only [Bool.false_eq_true, if_false]
    split <;> omega
  · rw [List.set_eq_of_length_le (by omega)]

/-- C6: for every gene, at most one transcript is promoted to 5, at most
one to 2, and the two promotions never both occur. -/
theorem matchTranscripts_promotions_exclusive (re : List Interval)
    (g : List (List Interval)) :
    (matchTranscriptsScores re g).count 5 ≤ 1 ∧
    (matchTranscriptsScores re g).count 2 ≤ 1 ∧
    ((matchTranscriptsScores re g).count 5 = 0 ∨
      (matchTranscriptsScores re g).count 2 = 0) := by
  have hb5 := base_count_eq_zero re g 5 (Or.inl rfl)
  have hb2 := base_count_eq_zero re g 2 (Or.inr rfl)
  rcases matchTranscriptsScores_shape re g with heq | ⟨w, heq⟩ | ⟨w, heq⟩ <;> rw [heq]
  · omega
  · have h5 := count_set_same_le (g.map (tranScore re)) w 5
    have h2 := count_set_other_le (g.map (tranScore re)) w 5 2 (by decide)
    omega
  · have h2 := count_set_same_le (g.map (tranScore re)) w 2
    have h5 := count_set_other_le (g.map (tranScore re)) w 2 5 (by decide)
    omega

theorem advanceGo_le (s : Int) : ∀ (l : List Annot) (cur : Nat),
    cur ≤ advanceGo s l cur ∧ advanceGo s l cur ≤ cur + l.length := by
  intro l
  induction l with
  | nil => intro cur; simp [advanceGo]
  | cons g rest ih =>
    intro cur
    simp only [advanceGo]
    split
    · have := ih (cur + 1)
      simp only [List.length_cons]
      omega
    · simp

theorem advanceGo_skipped (s : Int) : ∀ (l : List Annot) (cur j : Nat),
    cur ≤ j → j < advanceGo s l cur → (l.getD (j - cur) dA).stop < s := by
  intro l
  induction l with
  | nil => intro cur j h1 h2; simp [advanceGo] at h2; omega
  | cons g rest ih =>
    intro cur j h1 h2
    simp only [advanceGo] at h2
    split at h2
    · rcases Nat.eq_or_lt_of_le h1 with rfl | hlt
      · simpa using ‹g.stop < s›
      · have := ih (cur + 1) j hlt h2
        have hj : j - cur = (j - (cur + 1)) + 1 := by omega
        rw [hj, List.getD_cons_succ]
        exact this
    · omega

theorem advanceGo_stop (s : Int) : ∀ (l : List Annot) (cur : Nat),
    advanceGo s l cur - cur < l.length →
    ¬ (l.getD (advanceGo s l cur - cur) dA).stop < s := by
  intro l
  induction l with
  | nil => intro cur h; simp at h
  | cons g rest ih =>
    intro cur h
    by_cases hc : g.stop < s
    · simp only [advanceGo, if_pos hc] at h ⊢
      have hle := (advanceGo_le s rest (cur + 1)).1
      have hj : advanceGo s rest (cur + 1) - cur = (advanceGo s rest (cur + 1) - (cur + 1)) + 1 := by
        omega
      rw [hj] at h ⊢
      rw [List.getD_cons_succ]
      simp only [List.length_cons] at h
      exact ih (cur + 1) (by omega)
    · simp only [advanceGo, if_neg hc, Nat.sub_self, List.getD_cons_zero]
      exact hc

/-- If the gene at the cursor (when there is one) does not end before
`start`, `advance` does not move the cursor. -/
theorem advancePos_stable (gl : List Annot) (s : Int) (r : Nat)
    (h : r < gl.length → ¬ (gl.getD r dA).stop < s) :
    advancePos gl s r = r := by
  unfold advancePos
  cases hd : gl.drop r with
  | nil => rw [advanceGo]
  | cons g rest =>
    have hrlt : r < gl.length := by
      have := congrArg List.length hd
      rw [List.length_drop] at this
      simp only [List.length_cons] at this
      omega
    have hg : g = gl.getD r dA := by
      have h0 : (gl.drop r).getD 0 dA = g := by rw [hd]; rfl
      rw [getD_drop, Nat.add_zero] at h0
      exact h0.symm
    rw [advanceGo, if_neg (by rw [hg]; exact h hrlt)]

/-- The gene at the post-`advance` cursor, when in range, does not end
before `start`. -/
theorem advancePos_stop (gl : List Annot) (s : Int) (cur : Nat)
    (hlt : advancePos gl s cur < gl.length) :
    ¬ (gl.getD (advancePos gl s cur) dA).stop < s := by
  have hcur_le : cur ≤ advancePos gl s cur := (advanceGo_le s (gl.drop cur) cur).1
  have hrlen : advanceGo s (gl.drop cur) cur - cur < (gl.drop cur).length := by
    rw [List.length_drop]
    have he : advanceGo s (gl.drop cur) cur = advancePos gl s cur := rfl
    omega
  have := advanceGo_stop s (gl.drop cur) cur hrlen
  rw [show advanceGo s (gl.drop cur) cur = advancePos gl s cur from rfl] at this
  rw [getD_drop, Nat.add_sub_cancel' hcur_le] at this
  exact this

/-- `advance` is idempotent: the loop stops at an index whose gene does
not end before `start`, so running it again does not move. -/
theorem advancePos_idem (gl : List Annot) (s : Int) (cur : Nat) :
    advancePos gl s (advancePos gl s cur) = advancePos gl s cur := by
  apply advancePos_stable
  exact advancePos_stop gl s cur

/-- Absolute version of `advanceGo_skipped`. -/
theorem advancePos_skipped (gl : List Annot) (s : Int) (cur k : Nat)
    (h1 : cur ≤ k) (h2 : k < advancePos gl s cur) :
    (gl.getD k dA).stop < s := by
  have := advanceGo_skipped s (gl.drop cur) cur k h1 h2
  rw [getD_drop, Nat.add_sub_cancel' h1] at this
  exact this

/-- C8: `advance(chr, start)` never decreases any stored offset, leaves
other chromosomes untouched, skips exactly the maximal run of genes (from
the current offset) whose `end` is strictly below `start`, and is
idempotent: advancing again at the same position returns the same cursor. -/
theorem cursor_advance_spec (c : AnnotationCursor) (chr : String) (s : Int)
    (top : Annot) (h : c.annotList.geneList chr = .ok top) :
    ∃ c', c.advance chr s = .ok c' ∧
      (∀ ch, c.posit ch ≤ c'.posit ch) ∧
      (∀ ch, ch ≠ chr → c'.posit ch = c.posit ch) ∧
      (∀ k, c.posit chr ≤ k → k < c'.posit chr →
        (top.childList.getD k dA).stop < s) ∧
      (c'.posit chr < top.childList.length →
        ¬ (top.childList.getD (c'.posit chr) dA).stop < s) ∧
      c'.advance chr s = .ok c' := by
  refine ⟨⟨c.annotList,
    Function.update c.posit chr (advancePos top.childList s (c.posit chr))⟩,
    ?_, ?_, ?_, ?_, ?_, ?_⟩
  · unfold AnnotationCursor.advance
    rw [h]
  · intro ch
    dsimp only
    by_cases hch : ch = chr
    · subst hch
      rw [Function.update_same]
      exact (advanceGo_le s _ _).1
    · rw [Function.update_noteq hch]
  · intro ch hch
    dsimp only
    rw [Function.update_noteq hch]
  · intro k h1 h2
    dsimp only at h2
    rw [Function.update_same] at h2
    exact advancePos_skipped top.childList s (c.posit chr) k h1 h2
  · dsimp only
    rw [Function.update_same]
    exact advancePos_stop top.childList s (c.posit chr)
  · have hstep : AnnotationCursor.advance
        ⟨c.annotList, Function.update c.posit chr (advancePos top.childList s (c.posit chr))⟩
        chr s =
        .ok ⟨c.annotList, Function.update
          (Function.update c.posit chr (advancePos top.childList s (c.posit chr))) chr
          (advancePos top.childList s
            (Function.update c.posit chr (advancePos top.childList s (c.posit chr)) chr))⟩ := by
      unfold AnnotationCursor.advance
      dsimp only
      rw [h]
    rw [hstep, Function.update_same, advancePos_idem, Function.update_idem]

/-- Membership characterization of the `getOverlappingGenes` scan: a gene
is yielded iff it sits at some index `k` whose whole prefix (from the scan
origin) starts at or before the query end — so the scan skips, but does
not stop at, genes that end before the query start. -/
theorem scanGo_mem (startq stopq : Int) (strand : String) :
    ∀ (l : List Annot) (g : Annot),
    g ∈ scanGo startq stopq strand l ↔
      ∃ k, k < l.length ∧ l.getD k dA = g ∧ g.strand = strand ∧
        startq < g.stop ∧ ∀ m, m ≤ k → (l.getD m dA).start ≤ stopq := by
  intro l
  induction l with
  | nil => intro g; simp [scanGo]
  | cons g0 rest ih =>
    intro g
    rw [scanGo]
    split
    · rename_i hle
      rw [List.mem_append, ih g]
      constructor
      · rintro (hin | ⟨k, hk, hgk, hstr, hst, hpre⟩)
        · split at hin
          · rename_i hcond
            simp only [List.mem_singleton] at hin
            subst hin
            refine ⟨0, by simp, by simp, hcond.1, by omega, ?_⟩
            intro m hm
            interval_cases m
            simpa using hle
          · simp at hin
        · refine ⟨k + 1, by simpa using hk, by simpa using hgk, hstr, hst, ?_⟩
          intro m hm
          match m with
          | 0 => simpa using hle
          | Nat.succ m' =>
            rw [List.getD_cons_succ]
            exact hpre m' (by omega)
      · rintro ⟨k, hk, hgk, hstr, hst, hpre⟩
        match k with
        | 0 =>
          left
          rw [List.getD_cons_zero] at hgk
          subst hgk
          rw [if_pos ⟨hstr, by omega⟩]
          simp
        | Nat.succ k' =>
          right
          rw [List.getD_cons_succ] at hgk
          refine ⟨k', by simpa using hk, hgk, hstr, hst, ?_⟩
          intro m hm
          have := hpre (m + 1) (by omega)
          rwa [List.getD_cons_succ] at this
    · rename_i hgt
      simp only [List.not_mem_nil, false_iff, not_exists]
      rintro k ⟨hk, hgk, hstr, hst, hpre⟩
      have := hpre 0 (Nat.zero_le _)
      rw [List.getD_cons_zero] at this
      exact hgt this

/-- Absolute version: scanning `gl` from cursor index `cur`. -/
theorem getOverlappingGenes_mem (gl : List Annot) (cur : Nat)
    (startq stopq : Int) (strand : String) (g : Annot) :
    g ∈ getOverlappingGenes gl cur startq stopq strand ↔
      ∃ i, cur ≤ i ∧ i < gl.length ∧ gl.getD i dA = g ∧ g.strand = strand ∧
        startq < g.stop ∧ ∀ m, cur ≤ m → m ≤ i → (gl.getD m dA).start ≤ stopq := by
  unfold getOverlappingGenes
  rw [scanGo_mem]
  constructor
  · rintro ⟨k, hk, hgk, hstr, hst, hpre⟩
    rw [List.length_drop] at hk
    rw [getD_drop] at hgk
    refine ⟨cur + k, by omega, by omega, hgk, hstr, hst, ?_⟩
    intro m h1 h2
    have := hpre (m - cur) (by omega)
    rw [getD_drop, Nat.add_sub_cancel' h1] at this
    exact this
  · rintro ⟨i, h1, h2, hgk, hstr, hst, hpre⟩
    refine ⟨i - cur, ?_, ?_, hstr, hst, ?_⟩
    · rw [List.length_drop]; omega
    · rw [getD_drop, Nat.add_sub_cancel' h1]; exact hgk
    · intro m hm
      rw [getD_drop]
      exact hpre (cur + m) (by omega) (by omega)

/-- C7: `getOverlappingGenes` scans forward from the cursor, skipping (not
stopping at) genes whose end precedes the query start, stopping only when
a gene starts beyond the query end; concretely, with A=[10000,20000] and
B=[12000,18000] and the cursor at A, the query [14000,16000] yields both
genes and the query [19000,21000] yields A but not B. -/
theorem getOverlappingGenes_scan_spec :
    (∀ (gl : List Annot) (cur : Nat) (startq stopq : Int) (strand : String)
      (g : Annot),
      g ∈ getOverlappingGenes gl cur startq stopq strand ↔
        ∃ i, cur ≤ i ∧ i < gl.length ∧ gl.getD i dA = g ∧ g.strand = strand ∧
          startq < g.stop ∧ ∀ m, cur ≤ m → m ≤ i → (gl.getD m dA).start ≤ stopq) ∧
    getOverlappingGenes [geneA, geneB] 0 14000 16000 "+" = [geneA, geneB] ∧
    getOverlappingGenes [geneA, geneB] 0 19000 21000 "+" = [geneA] := by
  refine ⟨getOverlappingGenes_mem, rfl, rfl⟩

theorem getOverlappingGenes_scan_spec_witness :
    geneB ∈ getOverlappingGenes [geneA, geneB] 0 14000 16000 "+" ↔
      ∃ i, 0 ≤ i ∧ i < ([geneA, geneB] : List Annot).length ∧
        ([geneA, geneB] : List Annot).getD i dA = geneB ∧ geneB.strand = "+" ∧
        (14000 : Int) < geneB.stop ∧
        ∀ m, 0 ≤ m → m ≤ i →
          (([geneA, geneB] : List Annot).getD m dA).start ≤ 16000 :=
  getOverlappingGenes_scan_spec.1 [geneA, geneB] 0 14000 16000 "+" geneB

/-- C10: the gene filter is asymmetric at the boundaries: a yielded gene
always satisfies `gene.end > start` (strict, so a gene ending exactly at
the query start is excluded) and `gene.start ≤ end` (non-strict, so a gene
starting exactly at the query end is included); concretely, for the query
[200,300], G1=[100,200] is omitted while G2=[300,320] is returned. -/
theorem getOverlappingGenes_boundary_asym :
    (∀ (gl : List Annot) (cur : Nat) (startq stopq : Int) (strand : String)
      (g : Annot),
      g ∈ getOverlappingGenes gl cur startq stopq strand →
        startq < g.stop ∧ g.start ≤ stopq) ∧
    getOverlappingGenes [geneC, geneD] 0 200 300 "+" = [geneD] := by
  constructor
  · intro gl cur startq stopq strand g hmem
    obtain ⟨i, h1, h2, hgk, _, hst, hpre⟩ :=
      (getOverlappingGenes_mem gl cur startq stopq strand g).mp hmem
    refine ⟨hst, ?_⟩
    have := hpre i h1 (le_refl i)
    rwa [hgk] at this
  · rfl

theorem getOverlappingGenes_boundary_asym_witness :
    (200 : Int) < geneD.stop ∧ geneD.start ≤ 300 :=
  getOverlappingGenes_boundary_asym.1 [geneC, geneD] 0 200 300 "+" geneD
    (getOverlappingGenes_boundary_asym.2.symm ▸ List.mem_singleton_self geneD)

/-- C4 counterexample: `geneList` raises (`RuntimeError`, embedded as
`Except.error`) for a chromosome that is not in the index, rather than
returning an absent-result value. -/
theorem geneList_unknown_chr_raises :
    annotListW.geneList "chrX" = .error "chromosome chrX not in annotation" := rfl

/-- C4 amended: `getGene` surfaces a gene-name miss as `None` without
raising, but a chromosome-name miss in `geneList` raises a RuntimeError
(an exception, not an absent result). -/
theorem lookup_miss_behavior :
    (∀ (al : AnnotationList) (chr : String), al.annot.lookup chr = none →
      ∃ msg, al.geneList chr = .error msg) ∧
    (∀ (al : AnnotationList) (geneName : String),
      (∀ g ∈ al.allGenes, g.name ≠ geneName) → al.getGene geneName = none) := by
  constructor
  · intro al chr hmiss
    unfold AnnotationList.geneList
    rw [hmiss]
    exact ⟨_, rfl⟩
  · intro al geneName hmiss
    unfold AnnotationList.getGene
    have hfil : al.allGenes.filter (fun g => g.name == geneName) = [] := by
      rw [List.filter_eq_nil_iff]
      intro g hg
      simpa using hmiss g hg
    rw [hfil]
    rfl

theorem allGenesW : annotListW.allGenes = [geneA, geneB] := by
  unfold AnnotationList.allGenes annotListW
  simp [List.mergeSort_singleton, List.lookup, chrTopW, Annot.childList,
    Annot.children]

theorem lookup_miss_behavior_witness :
    (annotListW.annot.lookup "chrX" = none ∧
      (∀ g ∈ annotListW.allGenes, g.name ≠ "NOPE")) ∧
    ((∃ msg, annotListW.geneList "chrX" = .error msg) ∧
      annotListW.getGene "NOPE" = none) := by
  have hnames : ∀ g ∈ annotListW.allGenes, g.name ≠ "NOPE" := by
    intro g hg
    rw [allGenesW] at hg
    simp only [List.mem_cons, List.not_mem_nil, or_false] at hg
    rcases hg with rfl | rfl <;> decide
  exact ⟨⟨rfl, hnames⟩,
    lookup_miss_behavior.1 annotListW "chrX" rfl,
    lookup_miss_behavior.2 annotListW "NOPE" hnames⟩

/-- In a start-sorted list, every element starts at or before the last. -/
theorem sorted_le_getLast (l : List Annot) (hne : l ≠ [])
    (h : l.Pairwise (fun x y => x.start ≤ y.start)) :
    ∀ x ∈ l, x.start ≤ (l.getLast hne).start := by
  intro x hx
  obtain ⟨i, hi, rfl⟩ := List.getElem_of_mem hx
  rw [List.getLast_eq_getElem]
  rcases Nat.lt_or_ge i (l.length - 1) with hlt | hge
  · exact (List.pairwise_iff_getElem.mp h) i (l.length - 1) hi (by omega) hlt
  · have : i = l.length - 1 := by omega
    subst this
    exact le_refl _

/-- C9: `addChild` never rejects a child (the result's children are a
permutation of the new child and the old children) and keeps the child
list sorted ascending by `start` after every call, whatever the insertion
order. -/
theorem addChild_preserves_sorted (a c : Annot) (h : childrenSorted a) :
    childrenSorted (a.addChild c) ∧
    ∃ cs', (a.addChild c).children = some cs' ∧ cs'.Perm (c :: a.childList) := by
  obtain ⟨s, e, st, n, children⟩ := a
  cases children with
  | none =>
    refine ⟨?_, [c], rfl, by rfl⟩
    unfold childrenSorted Annot.childList Annot.addChild
    simp [Annot.children]
  | some cs =>
    cases cs with
    | nil =>
      refine ⟨?_, [c], rfl, by rfl⟩
      unfold childrenSorted Annot.childList Annot.addChild
      simp [Annot.children]
    | cons c0 rest =>
      unfold childrenSorted at h ⊢
      unfold Annot.childList at h ⊢
      simp only [Annot.children, Option.getD_some] at h
      unfold Annot.addChild
      dsimp only
      by_cases h1 : ((c0 :: rest).getLast (by simp)).start ≤ c.start
      · rw [if_pos h1]
        simp only [Annot.children, Option.getD_some]
        constructor
        · rw [List.pairwise_append]
          refine ⟨h, by simp, ?_⟩
          intro x hx y hy
          rw [List.mem_singleton] at hy
          subst hy
          exact le_trans (sorted_le_getLast _ (by simp) h x hx) h1
        · exact ⟨_, rfl, List.perm_append_comm⟩
      · rw [if_neg h1]
        by_cases h2 : c.start ≤ c0.start
        · rw [if_pos h2]
          simp only [Annot.children, Option.getD_some]
          refine ⟨?_, _, rfl, by rfl⟩
          rw [List.pairwise_cons]
          refine ⟨?_, h⟩
          intro y hy
          rw [List.mem_cons] at hy
          rcases hy with rfl | hy
          · exact h2
          · exact le_trans h2 ((List.pairwise_cons.mp h).1 y hy)
        · rw [if_neg h2]
          simp only [Annot.children, Option.getD_some]
          constructor
          · have hs := @List.sorted_mergeSort Annot
              (fun x y : Annot => decide (x.start ≤ y.start))
              (fun x y z hxy hyz => by
                simp only [decide_eq_true_eq] at hxy hyz ⊢
                omega)
              (fun x y => by
                simp only [Bool.or_eq_true, decide_eq_true_eq]
                omega)
              ((c0 :: rest) ++ [c])
            exact hs.imp (by intro x y hxy; simpa using hxy)
          · exact ⟨_, rfl,
              ((c0 :: rest) ++ [c]).mergeSort_perm _ |>.trans List.perm_append_comm⟩

theorem addChild_preserves_sorted_witness :
    childrenSorted nodeSortedW ∧
    (childrenSorted (nodeSortedW.addChild childMidW) ∧
      ∃ cs', (nodeSortedW.addChild childMidW).children = some cs' ∧
        cs'.Perm (childMidW :: nodeSortedW.childList)) := by
  have hs : childrenSorted nodeSortedW := by
    unfold childrenSorted nodeSortedW Annot.childList
    simp [Annot.children]
    decide
  exact ⟨hs, addChild_preserves_sorted nodeSortedW childMidW hs⟩

theorem cursor_advance_spec_witness :
    (cursorW.annotList.geneList "chr1" = .ok chrTopW) ∧
    (∃ c', cursorW.advance "chr1" 19000 = .ok c' ∧
      (∀ ch, cursorW.posit ch ≤ c'.posit ch) ∧
      (∀ ch, ch ≠ "chr1" → c'.posit ch = cursorW.posit ch) ∧
      (∀ k, cursorW.posit "chr1" ≤ k → k < c'.posit "chr1" →
        (chrTopW.childList.getD k dA).stop < 19000) ∧
      (c'.posit "chr1" < chrTopW.childList.length →
        ¬ (chrTopW.childList.getD (c'.posit "chr1") dA).stop < 19000) ∧
      c'.advance "chr1" 19000 = .ok c') :=
  ⟨rfl, cursor_advance_spec cursorW "chr1" 19000 chrTopW rfl⟩

/-- C3 (code bug): the strand-retry decision compares `bestHit.which`
(the payload list, or None) with the int 1, so under Python 3 semantics
it raises TypeError for every aligned read — when a gene was found on the
aligned strand (payload is a list) and equally when none was (payload is
None) — instead of comparing the tracker's score value with 1 as the spec
(and the source's own comment, line 192) intends. -/
theorem strand_decision_raises :
    tryStrands "+" genesOnW = .error "TypeError: unorderable types" ∧
    tryStrands "-" genesOnW = .error "TypeError: unorderable types" :=
  ⟨rfl, rfl⟩

end MatchAnnot
